import Mathlib

/-!
# Verification of the hw2 root-finding scripts

A shallow embedding of the five root-finding scripts under `src/hw2`
(`bisection_method.py`, `false_position.py`, `secant_method.py`,
`newton_method.py`, `q2-fixed-point.py`).  Python floats are modelled as
exact rationals (`ℚ`), caller-supplied function handles as `ℚ → ℚ`, and
the bounded `for`-loops as fuel-indexed recursion where the fuel is the
number of loop indices remaining (so fuel `0` is the loop's `else`
clause, reached on exhausting the iteration range).  Each engine's list
of accumulated records is built with exact values; the rounding that the
scripts apply when appending a record is expressed as a per-row rounding
map applied to the same list, which yields the identical CSV rows.
-/

namespace RootFinding

/-- Round half to even of a rational to an integer: the rounding mode of
Python's built-in `round` (banker's rounding), modelled on exact
rationals. -/
def roundHalfEven (x : ℚ) : ℤ :=
  let f := ⌊x⌋
  let r := x - f
  if r < 1/2 then f
  else if 1/2 < r then f + 1
  else if f % 2 = 0 then f else f + 1

/-- Python's `round(x, d)` on exact rationals. -/
def pyround (x : ℚ) (d : ℕ) : ℚ := roundHalfEven (x * 10 ^ d) / 10 ^ d

/-- `int(-math.log10(tolerance)) + 1`, the display precision computed at
`secant_method.py:24` and `false_position.py:25`.  For a rational
tolerance `t` with `0 < t`, `int` truncation of the nonnegative value
`-log10 t` equals `Nat.log 10` of the integer part of `1/t`. -/
def decimal_places (t : ℚ) : ℕ := Nat.log 10 (⌊1/t⌋).toNat + 1

/-! ## Bisection (`src/hw2/bisection_method.py`) -/

/-- One pass of the pre-loop bracket adjustment
(`bisection_method.py:23-25`): `a = a + 0.5; b = b - 0.5`. -/
def adjust_step (p : ℚ × ℚ) : ℚ × ℚ := (p.1 + 0.5, p.2 - 0.5)

/-- Termination predicate of the `while func(a) * func(b) >= 0` loop at
`bisection_method.py:23`: the loop's state after `k` passes is
`adjust_step^[k] (a, b)` (the guard does not affect the state update), so
the loop exits iff some iterate makes the guard false. -/
def bracket_adjust_exits (func : ℚ → ℚ) (a b : ℚ) : Prop :=
  ∃ k : ℕ, func (adjust_step^[k] (a, b)).1 * func (adjust_step^[k] (a, b)).2 < 0

/-- One row of the `iterations` list of `bisection_method`:
`[n, a_n, b_n, p_n, f(p_n), (b_n - a_n)/2]`. -/
structure BisRow where
  n : ℕ
  an : ℚ
  bn : ℚ
  pn : ℚ
  fpn : ℚ
  error : ℚ
deriving DecidableEq

/-- How the `for`/`else` of `bisection_method` ended. -/
inductive BisOutcome where
  | converged : ℚ → ℕ → BisOutcome
  | maxIterReached : BisOutcome
deriving DecidableEq

/-- The main loop of `bisection_method` (`bisection_method.py:32-53`),
carrying the current bracket `(an, bn)`, the current loop index `n`, and
the number of loop indices left.  Rows store exact values; the script
rounds each entry to 7 decimal places when appending, which
`bisection_iterations` applies below. -/
def bisection_loop (func : ℚ → ℚ) (tol : ℚ) :
    ℚ → ℚ → ℕ → ℕ → List BisRow × BisOutcome
  | _, _, _, 0 => ([], BisOutcome.maxIterReached)
  | an, bn, n, fuel + 1 =>
    let pn := (an + bn) / 2
    let fpn := func pn
    let error := (bn - an) / 2
    let row : BisRow := ⟨n, an, bn, pn, fpn, error⟩
    if error < tol ∨ fpn = 0 then ([row], BisOutcome.converged pn n)
    else if func an * fpn < 0 then
      let r := bisection_loop func tol an pn (n + 1) fuel
      (row :: r.1, r.2)
    else
      let r := bisection_loop func tol pn bn (n + 1) fuel
      (row :: r.1, r.2)

/-- The 7-decimal-place rounding applied at `bisection_method.py:41-42`
when a row is appended. -/
def roundBisRow (r : BisRow) : BisRow :=
  ⟨r.n, pyround r.an 7, pyround r.bn 7, pyround r.pn 7, pyround r.fpn 7,
    pyround r.error 7⟩

/-- The rows written to `bisection_results.csv` for a run whose main loop
starts from the bracket `(a, b)`: `for n in range(1, max_iter + 1)` runs
`max_iter` indices starting at `n = 1`.  When `func a * func b < 0`
already holds, the pre-loop adjustment exits at once and `(a, b)` is the
caller's interval itself. -/
def bisection_iterations (func : ℚ → ℚ) (a b tol : ℚ) (max_iter : ℕ) :
    List BisRow :=
  ((bisection_loop func tol a b 1 max_iter).1).map roundBisRow

/-! ## Secant (`src/hw2/secant_method.py`) -/

/-- One row of the `iterations` list of `secant_method`:
`(i, p_i, f(p_i), error)`, where the error entry is `"N/A"` (`none`) for
the seed row `0`. -/
structure SecRow where
  n : ℕ
  pn : ℚ
  fpn : ℚ
  error : Option ℚ
deriving DecidableEq

/-- How the loop of `secant_method` ended. -/
inductive SecOutcome where
  | divisionByZero : SecOutcome
  | converged : ℚ → ℕ → SecOutcome
  | maxIterReached : SecOutcome
deriving DecidableEq

/-- The secant update formula at `secant_method.py:44-45`:
`p_next = p1 - f(p1)*(p1 - p0)/(f(p1) - f(p0))` for the two most recent
estimates `p0`, `p1`. -/
def secant_p_next (func : ℚ → ℚ) (p0 p1 : ℚ) : ℚ :=
  p1 - (func p1 * (p1 - p0)) / (func p1 - func p0)

/-- The main loop of `secant_method` (`secant_method.py:36-58`), carrying
the two most recent estimates `(pm1, p)` and the loop index `i`
(`for i in range(2, max_iter + 2)`). -/
def secant_loop (func : ℚ → ℚ) (tol : ℚ) :
    ℚ → ℚ → ℕ → ℕ → List SecRow × SecOutcome
  | _, _, _, 0 => ([], SecOutcome.maxIterReached)
  | pm1, p, i, fuel + 1 =>
    if func p - func pm1 = 0 then ([], SecOutcome.divisionByZero)
    else
      let p_next := secant_p_next func pm1 p
      let error := |p_next - p|
      let row : SecRow := ⟨i, p_next, func p_next, some error⟩
      if error < tol then ([row], SecOutcome.converged p_next i)
      else
        let r := secant_loop func tol p p_next (i + 1) fuel
        (row :: r.1, r.2)

/-- `secant_method` with its seed rows `0` and `1`
(`secant_method.py:30-34`) followed by the main loop started at index
`2`. -/
def secant_method (func : ℚ → ℚ) (p0 p1 tol : ℚ) (max_iter : ℕ) :
    List SecRow × SecOutcome :=
  let r := secant_loop func tol p0 p1 2 max_iter
  (⟨0, p0, func p0, none⟩ :: ⟨1, p1, func p1, some |p1 - p0|⟩ :: r.1, r.2)

/-- The `decimal_places` rounding applied to every numeric entry of a
secant row when it is appended. -/
def roundSecRow (d : ℕ) (r : SecRow) : SecRow :=
  ⟨r.n, pyround r.pn d, pyround r.fpn d, r.error.map (fun e => pyround e d)⟩

/-- The rows written to `secant_results.csv`: every numeric entry rounded
to `decimal_places tol` places. -/
def secant_csv (func : ℚ → ℚ) (p0 p1 tol : ℚ) (max_iter : ℕ) : List SecRow :=
  ((secant_method func p0 p1 tol max_iter).1).map
    (roundSecRow (decimal_places tol))

/-! ## False position (`src/hw2/false_position.py`) -/

/-- One row of the `iterations` list of `false_position`:
`(i, p_i, error)`. -/
structure FPRow where
  n : ℕ
  pn : ℚ
  error : Option ℚ
deriving DecidableEq

/-- How the loop of `false_position` ended. -/
inductive FPOutcome where
  | divisionByZero : FPOutcome
  | converged : ℚ → ℕ → FPOutcome
  | maxIterReached : FPOutcome
deriving DecidableEq

/-- The false-position update formula at `false_position.py:54`:
`p_next = a - f(a)*(b - a)/(f(b) - f(a))` for the current bracket
`(a, b)`. -/
def fp_p_next (func : ℚ → ℚ) (a b : ℚ) : ℚ :=
  a - func a * (b - a) / (func b - func a)

/-- The main loop of `false_position` (`false_position.py:44-81`),
carrying `p_prev`, the maintained bracket `(a, b)` (`current_a`,
`current_b`), and the loop index `i` (`for i in range(2, max_iter + 2)`).
After a non-converged step the bracket keeps one endpoint on the sign
test `func(current_a) * func(p_next) < 0` (`false_position.py:71-76`). -/
def false_position_loop (func : ℚ → ℚ) (tol : ℚ) :
    ℚ → ℚ → ℚ → ℕ → ℕ → List FPRow × FPOutcome
  | _, _, _, _, 0 => ([], FPOutcome.maxIterReached)
  | p_prev, a, b, i, fuel + 1 =>
    if func b - func a = 0 then ([], FPOutcome.divisionByZero)
    else
      let p_next := fp_p_next func a b
      let error := |p_next - p_prev|
      let row : FPRow := ⟨i, p_next, some error⟩
      if error < tol then ([row], FPOutcome.converged p_next i)
      else if func a * func p_next < 0 then
        let r := false_position_loop func tol p_next a p_next (i + 1) fuel
        (row :: r.1, r.2)
      else
        let r := false_position_loop func tol p_next p_next b (i + 1) fuel
        (row :: r.1, r.2)

/-- `false_position` with its seed rows `0` and `1`
(`false_position.py:35-41`) followed by the main loop started at index
`2` with `p_prev = b`, `current_a = a`, `current_b = b`. -/
def false_position (func : ℚ → ℚ) (a b tol : ℚ) (max_iter : ℕ) :
    List FPRow × FPOutcome :=
  let r := false_position_loop func tol b a b 2 max_iter
  (⟨0, a, none⟩ :: ⟨1, b, some |b - a|⟩ :: r.1, r.2)

/-- The `decimal_places` rounding applied to every numeric entry of a
false-position row when it is appended. -/
def roundFPRow (d : ℕ) (r : FPRow) : FPRow :=
  ⟨r.n, pyround r.pn d, r.error.map (fun e => pyround e d)⟩

/-- The rows written to `false_position_results.csv`. -/
def false_position_csv (func : ℚ → ℚ) (a b tol : ℚ) (max_iter : ℕ) :
    List FPRow :=
  ((false_position func a b tol max_iter).1).map
    (roundFPRow (decimal_places tol))

/-! ## Newton (`src/hw2/newton_method.py`) -/

/-- One row of the `iterations` list of `newton_method`:
`(n, x_n, f(x_n), f'(x_n), error)`, where the error entry is `"N/A"`
(`none`) for row `0`. -/
structure NewtonRow where
  n : ℕ
  xn : ℚ
  fx : ℚ
  dfx : ℚ
  error : Option ℚ
deriving DecidableEq

/-- How `newton_method` ended. -/
inductive NewtonOutcome where
  | zeroDerivative : NewtonOutcome
  | converged : ℚ → ℕ → NewtonOutcome
  | maxIterReached : NewtonOutcome
deriving DecidableEq

/-- The main loop of `newton_method` (`newton_method.py:25-51`), carrying
the current estimate `xn`, the error carried over from the previous
iteration's step (`none` at `n = 0`), and the loop index `n`
(`for n in range(max_iter)`).  On `d_func xn = 0` the script prints and
does `return None` before appending the current row
(`newton_method.py:30-32`). -/
def newton_loop (func d_func : ℚ → ℚ) (tol : ℚ) :
    ℚ → Option ℚ → ℕ → ℕ → List NewtonRow × NewtonOutcome
  | _, _, _, 0 => ([], NewtonOutcome.maxIterReached)
  | xn, err, n, fuel + 1 =>
    let fx := func xn
    let dfx := d_func xn
    if dfx = 0 then ([], NewtonOutcome.zeroDerivative)
    else
      let x_next := xn - fx / dfx
      let row : NewtonRow := ⟨n, xn, fx, dfx, err⟩
      if |x_next - xn| < tol then ([row], NewtonOutcome.converged x_next n)
      else
        let r := newton_loop func d_func tol x_next (some |x_next - xn|) (n + 1) fuel
        (row :: r.1, r.2)

/-- The 7-decimal-place rounding applied at `newton_method.py:37-38` when
a row is appended. -/
def roundNewtonRow (r : NewtonRow) : NewtonRow :=
  ⟨r.n, pyround r.xn 7, pyround r.fx 7, pyround r.dfx 7,
    r.error.map (fun e => pyround e 7)⟩

/-- The rows written to `newton_results.csv`, or `none` when nothing is
written: the zero-derivative branch of `newton_method` executes
`return None` at `newton_method.py:32`, before the `with open(...)` CSV
block at `newton_method.py:54-59`, so on that outcome the accumulated
`iterations` list is discarded; every other outcome falls through to the
CSV write. -/
def newton_csv (func d_func : ℚ → ℚ) (x0 tol : ℚ) (max_iter : ℕ) :
    Option (List NewtonRow) :=
  match newton_loop func d_func tol x0 none 0 max_iter with
  | (_, NewtonOutcome.zeroDerivative) => none
  | (rows, _) => some (rows.map roundNewtonRow)

/-! ## Fixed point (`src/hw2/q2-fixed-point.py`) -/

/-- One row of the `iterations` list of
`fixed_point_iteration_with_error`: `{'n': n, 'p': p, 'error': e}` with
`error = None` for row `0`.  This engine stores values with no rounding
at all. -/
structure FixRow where
  n : ℕ
  p : ℚ
  error : Option ℚ
deriving DecidableEq

/-- The loop of `fixed_point_iteration_with_error`
(`q2-fixed-point.py:10-17`): `for n in range(1, max_iter + 1)`. -/
def fixed_point_loop (g : ℚ → ℚ) (tol : ℚ) : ℚ → ℕ → ℕ → List FixRow
  | _, _, 0 => []
  | p_prev, n, fuel + 1 =>
    let p_curr := g p_prev
    let error := |p_curr - p_prev|
    let row : FixRow := ⟨n, p_curr, some error⟩
    if error < tol then [row]
    else row :: fixed_point_loop g tol p_curr (n + 1) fuel

/-- `fixed_point_iteration_with_error` (`q2-fixed-point.py:4-19`): the
seed row `0` followed by the loop started at `n = 1`. -/
def fixed_point_iteration_with_error (g : ℚ → ℚ) (p0 tol : ℚ)
    (max_iter : ℕ) : List FixRow :=
  ⟨0, p0, none⟩ :: fixed_point_loop g tol p0 1 max_iter

/-! ## Helper lemmas -/

theorem adjust_step_iterate (a b : ℚ) (k : ℕ) :
    adjust_step^[k] (a, b) = (a + k * 0.5, b - k * 0.5) := by
  induction k with
  | zero => simp
  | succ k ih =>
      rw [Function.iterate_succ_apply', ih, adjust_step]
      push_cast
      refine Prod.ext ?_ ?_ <;> dsimp <;> ring

theorem bisection_loop_map_n (func : ℚ → ℚ) (tol : ℚ) :
    ∀ (fuel : ℕ) (an bn : ℚ) (n : ℕ),
      ((bisection_loop func tol an bn n fuel).1.map BisRow.n)
        = List.range' n (bisection_loop func tol an bn n fuel).1.length := by
  intro fuel
  induction fuel with
  | zero => intro an bn n; simp [bisection_loop]
  | succ fuel ih =>
      intro an bn n
      rw [bisection_loop]
      dsimp only
      split
      · simp [List.range']
      · split <;> simp [List.range', ih]

theorem bisection_loop_length_le (func : ℚ → ℚ) (tol : ℚ) :
    ∀ (fuel : ℕ) (an bn : ℚ) (n : ℕ),
      (bisection_loop func tol an bn n fuel).1.length ≤ fuel := by
  intro fuel
  induction fuel with
  | zero => intro an bn n; simp [bisection_loop]
  | succ fuel ih =>
      intro an bn n
      rw [bisection_loop]
      dsimp only
      split
      · simp
      · split <;> simpa using ih _ _ _

theorem bisection_loop_head_error (func : ℚ → ℚ) (tol : ℚ)
    (fuel : ℕ) (an bn : ℚ) (n : ℕ) (r : BisRow) (l : List BisRow)
    (h : (bisection_loop func tol an bn n fuel).1 = r :: l) :
    r.error = (bn - an) / 2 := by
  cases fuel with
  | zero => simp [bisection_loop] at h
  | succ fuel =>
      rw [bisection_loop] at h
      dsimp only at h
      split at h
      · simp at h; rw [← h.1]
      · split at h <;> (simp at h; rw [← h.1])

theorem bisection_loop_chain (func : ℚ → ℚ) (tol : ℚ) :
    ∀ (fuel : ℕ) (an bn : ℚ) (n : ℕ),
      List.Chain' (fun r s => s.error = r.error / 2)
        (bisection_loop func tol an bn n fuel).1 := by
  intro fuel
  induction fuel with
  | zero => intro an bn n; simp [bisection_loop]
  | succ fuel ih =>
      intro an bn n
      rw [bisection_loop]
      dsimp only
      split
      · simp
      · split
        · rw [List.chain'_cons']
          refine ⟨?_, ih _ _ _⟩
          intro y hy
          rcases hl : (bisection_loop func tol an ((an + bn) / 2) (n + 1) fuel).1 with _ | ⟨r, l⟩
          · rw [hl] at hy; simp at hy
          · rw [hl] at hy
            simp at hy
            subst hy
            have := bisection_loop_head_error func tol fuel an ((an + bn) / 2) (n + 1) r l hl
            rw [this]
            dsimp only
            ring
        · rw [List.chain'_cons']
          refine ⟨?_, ih _ _ _⟩
          intro y hy
          rcases hl : (bisection_loop func tol ((an + bn) / 2) bn (n + 1) fuel).1 with _ | ⟨r, l⟩
          · rw [hl] at hy; simp at hy
          · rw [hl] at hy
            simp at hy
            subst hy
            have := bisection_loop_head_error func tol fuel ((an + bn) / 2) bn (n + 1) r l hl
            rw [this]
            dsimp only
            ring

theorem bisection_loop_row_error (func : ℚ → ℚ) (tol : ℚ) :
    ∀ (fuel : ℕ) (an bn : ℚ) (n : ℕ),
      ∀ r ∈ (bisection_loop func tol an bn n fuel).1,
        r.error = (r.bn - r.an) / 2 := by
  intro fuel
  induction fuel with
  | zero => intro an bn n; simp [bisection_loop]
  | succ fuel ih =>
      intro an bn n
      rw [bisection_loop]
      dsimp only
      split
      · simp
      · split <;>
          (intro r hr
           rcases List.mem_cons.mp hr with h | h
           · subst h; dsimp
           · exact ih _ _ _ r h)

theorem bisection_loop_converged_le (func : ℚ → ℚ) (tol : ℚ) :
    ∀ (fuel : ℕ) (an bn : ℚ) (n : ℕ) (root : ℚ) (j : ℕ),
      (bisection_loop func tol an bn n fuel).2 = BisOutcome.converged root j →
        n ≤ j := by
  intro fuel
  induction fuel with
  | zero => intro an bn n root j h; simp [bisection_loop] at h
  | succ fuel ih =>
      intro an bn n root j h
      rw [bisection_loop] at h
      dsimp only at h
      split at h
      · simp at h; omega
      · split at h <;>
          (dsimp at h
           exact le_of_lt (lt_of_lt_of_le (Nat.lt_succ_self n) (ih _ _ _ _ _ h)))

theorem bisection_loop_converged_iff (func : ℚ → ℚ) (tol an bn : ℚ)
    (n fuel : ℕ) :
    bisection_loop func tol an bn n (fuel + 1)
        = ([⟨n, an, bn, (an + bn) / 2, func ((an + bn) / 2), (bn - an) / 2⟩],
           BisOutcome.converged ((an + bn) / 2) n)
      ↔ ((bn - an) / 2 < tol ∨ func ((an + bn) / 2) = 0) := by
  rw [bisection_loop]
  dsimp only
  split
  · rename_i hstop
    exact ⟨fun _ => hstop, fun _ => rfl⟩
  · rename_i hstop
    split <;>
      (constructor
       · intro h
         have h2 := congr(($h).2)
         dsimp at h2
         have := bisection_loop_converged_le func tol fuel _ _ (n + 1) _ _ h2
         omega
       · intro h; exact absurd h hstop)

theorem secant_loop_map_n (func : ℚ → ℚ) (tol : ℚ) :
    ∀ (fuel : ℕ) (pm1 p : ℚ) (i : ℕ),
      ((secant_loop func tol pm1 p i fuel).1.map SecRow.n)
        = List.range' i (secant_loop func tol pm1 p i fuel).1.length := by
  intro fuel
  induction fuel with
  | zero => intro pm1 p i; simp [secant_loop]
  | succ fuel ih =>
      intro pm1 p i
      rw [secant_loop]
      dsimp only
      split
      · simp
      · split
        · simp [List.range']
        · simp [List.range', ih]

theorem secant_loop_converged_le (func : ℚ → ℚ) (tol : ℚ) :
    ∀ (fuel : ℕ) (pm1 p : ℚ) (i : ℕ) (root : ℚ) (j : ℕ),
      (secant_loop func tol pm1 p i fuel).2 = SecOutcome.converged root j →
        i ≤ j := by
  intro fuel
  induction fuel with
  | zero => intro pm1 p i root j h; simp [secant_loop] at h
  | succ fuel ih =>
      intro pm1 p i root j h
      rw [secant_loop] at h
      dsimp only at h
      split at h
      · simp at h
      · split at h
        · simp at h; omega
        · dsimp at h
          exact le_of_lt (lt_of_lt_of_le (Nat.lt_succ_self i) (ih _ _ _ _ _ h))

theorem secant_loop_converged_iff (func : ℚ → ℚ) (tol pm1 p : ℚ)
    (i fuel : ℕ) :
    secant_loop func tol pm1 p i (fuel + 1)
        = ([⟨i, secant_p_next func pm1 p, func (secant_p_next func pm1 p),
             some |secant_p_next func pm1 p - p|⟩],
           SecOutcome.converged (secant_p_next func pm1 p) i)
      ↔ (func p - func pm1 ≠ 0 ∧ |secant_p_next func pm1 p - p| < tol) := by
  rw [secant_loop]
  dsimp only
  split
  · rename_i hden
    constructor
    · intro h
      exact absurd congr(($h).1) (by simp)
    · rintro ⟨h, -⟩; exact absurd hden h
  · rename_i hden
    split
    · rename_i herr
      exact ⟨fun _ => ⟨hden, herr⟩, fun _ => rfl⟩
    · rename_i herr
      constructor
      · intro h
        have h2 := congr(($h).2)
        dsimp at h2
        have := secant_loop_converged_le func tol fuel p
          (secant_p_next func pm1 p) (i + 1) _ _ h2
        omega
      · rintro ⟨-, h⟩; exact absurd h herr

theorem false_position_loop_map_n (func : ℚ → ℚ) (tol : ℚ) :
    ∀ (fuel : ℕ) (pp a b : ℚ) (i : ℕ),
      ((false_position_loop func tol pp a b i fuel).1.map FPRow.n)
        = List.range' i (false_position_loop func tol pp a b i fuel).1.length := by
  intro fuel
  induction fuel with
  | zero => intro pp a b i; simp [false_position_loop]
  | succ fuel ih =>
      intro pp a b i
      rw [false_position_loop]
      dsimp only
      split
      · simp
      · split
        · simp [List.range']
        · split <;> simp [List.range', ih]

theorem false_position_loop_converged_le (func : ℚ → ℚ) (tol : ℚ) :
    ∀ (fuel : ℕ) (pp a b : ℚ) (i : ℕ) (root : ℚ) (j : ℕ),
      (false_position_loop func tol pp a b i fuel).2 = FPOutcome.converged root j →
        i ≤ j := by
  intro fuel
  induction fuel with
  | zero => intro pp a b i root j h; simp [false_position_loop] at h
  | succ fuel ih =>
      intro pp a b i root j h
      rw [false_position_loop] at h
      dsimp only at h
      split at h
      · simp at h
      · split at h
        · simp at h; omega
        · split at h <;>
            (dsimp at h
             exact le_of_lt (lt_of_lt_of_le (Nat.lt_succ_self i) (ih _ _ _ _ _ _ h)))

theorem false_position_loop_converged_iff (func : ℚ → ℚ) (tol pp a b : ℚ)
    (i fuel : ℕ) :
    false_position_loop func tol pp a b i (fuel + 1)
        = ([⟨i, fp_p_next func a b, some |fp_p_next func a b - pp|⟩],
           FPOutcome.converged (fp_p_next func a b) i)
      ↔ (func b - func a ≠ 0 ∧ |fp_p_next func a b - pp| < tol) := by
  rw [false_position_loop]
  dsimp only
  split
  · rename_i hden
    constructor
    · intro h
      exact absurd congr(($h).1) (by simp)
    · rintro ⟨h, -⟩; exact absurd hden h
  · rename_i hden
    split
    · rename_i herr
      exact ⟨fun _ => ⟨hden, herr⟩, fun _ => rfl⟩
    · rename_i herr
      split <;>
        (constructor
         · intro h
           have h2 := congr(($h).2)
           dsimp at h2
           have := false_position_loop_converged_le func tol fuel _ _ _ (i + 1) _ _ h2
           omega
         · rintro ⟨-, h⟩; exact absurd h herr)

theorem newton_loop_map_n (func d_func : ℚ → ℚ) (tol : ℚ) :
    ∀ (fuel : ℕ) (x : ℚ) (e : Option ℚ) (n : ℕ),
      ((newton_loop func d_func tol x e n fuel).1.map NewtonRow.n)
        = List.range' n (newton_loop func d_func tol x e n fuel).1.length := by
  intro fuel
  induction fuel with
  | zero => intro x e n; simp [newton_loop]
  | succ fuel ih =>
      intro x e n
      rw [newton_loop]
      dsimp only
      split
      · simp
      · split
        · simp [List.range']
        · simp [List.range', ih]

theorem newton_loop_converged_le (func d_func : ℚ → ℚ) (tol : ℚ) :
    ∀ (fuel : ℕ) (x : ℚ) (e : Option ℚ) (n : ℕ) (root : ℚ) (j : ℕ),
      (newton_loop func d_func tol x e n fuel).2 = NewtonOutcome.converged root j →
        n ≤ j := by
  intro fuel
  induction fuel with
  | zero => intro x e n root j h; simp [newton_loop] at h
  | succ fuel ih =>
      intro x e n root j h
      rw [newton_loop] at h
      dsimp only at h
      split at h
      · simp at h
      · split at h
        · simp at h; omega
        · dsimp at h
          exact le_of_lt (lt_of_lt_of_le (Nat.lt_succ_self n) (ih _ _ _ _ _ h))

theorem newton_loop_converged_iff (func d_func : ℚ → ℚ) (tol x : ℚ)
    (e : Option ℚ) (n fuel : ℕ) :
    newton_loop func d_func tol x e n (fuel + 1)
        = ([⟨n, x, func x, d_func x, e⟩],
           NewtonOutcome.converged (x - func x / d_func x) n)
      ↔ (d_func x ≠ 0 ∧ |x - func x / d_func x - x| < tol) := by
  rw [newton_loop]
  dsimp only
  split
  · rename_i hd
    constructor
    · intro h
      exact absurd congr(($h).1) (by simp)
    · rintro ⟨h, -⟩; exact absurd hd h
  · rename_i hd
    split
    · rename_i herr
      exact ⟨fun _ => ⟨hd, herr⟩, fun _ => rfl⟩
    · rename_i herr
      constructor
      · intro h
        have h2 := congr(($h).2)
        dsimp at h2
        have := newton_loop_converged_le func d_func tol fuel _ _ (n + 1) _ _ h2
        omega
      · rintro ⟨-, h⟩; exact absurd h herr

theorem newton_loop_zero_derivative (func d_func : ℚ → ℚ) (tol x : ℚ)
    (e : Option ℚ) (n fuel : ℕ) (hd : d_func x = 0) :
    newton_loop func d_func tol x e n (fuel + 1)
      = ([], NewtonOutcome.zeroDerivative) := by
  rw [newton_loop]
  dsimp only
  rw [if_pos hd]

theorem newton_csv_none_iff (func d_func : ℚ → ℚ) (x0 tol : ℚ)
    (max_iter : ℕ) :
    newton_csv func d_func x0 tol max_iter = none
      ↔ (newton_loop func d_func tol x0 none 0 max_iter).2
          = NewtonOutcome.zeroDerivative := by
  rcases h : newton_loop func d_func tol x0 none 0 max_iter with ⟨rows, out⟩
  cases out <;> simp [newton_csv, h]

theorem fixed_point_loop_map_n (g : ℚ → ℚ) (tol : ℚ) :
    ∀ (fuel : ℕ) (p : ℚ) (n : ℕ),
      ((fixed_point_loop g tol p n fuel).map FixRow.n)
        = List.range' n (fixed_point_loop g tol p n fuel).length := by
  intro fuel
  induction fuel with
  | zero => intro p n; simp [fixed_point_loop]
  | succ fuel ih =>
      intro p n
      rw [fixed_point_loop]
      split
      · simp [List.range']
      · simp [List.range', ih]

theorem fixed_point_loop_ne_nil (g : ℚ → ℚ) (tol p : ℚ) (n fuel : ℕ) :
    fixed_point_loop g tol p n (fuel + 1) ≠ [] := by
  rw [fixed_point_loop]
  split <;> simp

theorem fixed_point_loop_singleton_iff (g : ℚ → ℚ) (tol p : ℚ)
    (n fuel : ℕ) :
    fixed_point_loop g tol p n (fuel + 2) = [⟨n, g p, some |g p - p|⟩]
      ↔ |g p - p| < tol := by
  rw [fixed_point_loop]
  split
  · rename_i herr
    exact ⟨fun _ => herr, fun _ => rfl⟩
  · rename_i herr
    constructor
    · intro h
      have := congr((($h)).tail)
      dsimp at this
      exact absurd this (fixed_point_loop_ne_nil g tol (g p) (n + 1) fuel)
    · intro h; exact absurd h herr

theorem newton_loop_continue (func d_func : ℚ → ℚ) (tol x : ℚ)
    (e : Option ℚ) (n fuel : ℕ) (hd : ¬ d_func x = 0)
    (hc : ¬ |x - func x / d_func x - x| < tol) :
    newton_loop func d_func tol x e n (fuel + 1)
      = (⟨n, x, func x, d_func x, e⟩ ::
          (newton_loop func d_func tol (x - func x / d_func x)
            (some |x - func x / d_func x - x|) (n + 1) fuel).1,
         (newton_loop func d_func tol (x - func x / d_func x)
            (some |x - func x / d_func x - x|) (n + 1) fuel).2) := by
  rw [newton_loop]
  dsimp only
  rw [if_neg hd, if_neg hc]

theorem fixed_point_loop_continue (g : ℚ → ℚ) (tol p : ℚ) (n fuel : ℕ)
    (hc : ¬ |g p - p| < tol) :
    fixed_point_loop g tol p n (fuel + 1)
      = ⟨n, g p, some |g p - p|⟩ :: fixed_point_loop g tol (g p) (n + 1) fuel := by
  rw [fixed_point_loop]
  rw [if_neg hc]

theorem decimal_places_pow (k : ℕ) : decimal_places (1 / 10 ^ k) = k + 1 := by
  rw [decimal_places, one_div_one_div]
  have h : ((10 : ℚ) ^ k) = (((10 ^ k : ℤ) : ℚ)) := by push_cast; ring
  rw [h, Int.floor_intCast]
  have h2 : ((10 : ℤ) ^ k).toNat = 10 ^ k := by
    have h3 : ((10 : ℤ) ^ k) = ((10 ^ k : ℕ) : ℤ) := by push_cast; ring
    rw [h3, Int.toNat_natCast]
  rw [h2, Nat.log_pow (by norm_num)]

theorem decimal_places_two : decimal_places 2 = 1 := by
  rw [decimal_places]
  have h : ⌊(1 / 2 : ℚ)⌋ = 0 := by
    rw [Int.floor_eq_iff] ; norm_num
  rw [h]
  simp

/-! ## Claim theorems -/

/-- C1: the claim says every bisection run terminates, with the pre-loop
bracket adjustment bounded by a finite search budget that emits a
`NoBracket` failure on exhaustion.  The main loop is indeed hard-capped by
`max_iter`, but the pre-loop `while func(a) * func(b) >= 0` adjustment at
`bisection_method.py:23-25` has no budget: for the constant handle
`fun _ => 1` started on `(0, 2)` no iterate of `adjust_step` ever makes
the guard false, so that loop never exits and no `NoBracket` failure
exists anywhere in the code. -/
theorem bisection_termination_claim :
    (∀ (func : ℚ → ℚ) (tol a b : ℚ) (n fuel : ℕ),
        (bisection_loop func tol a b n fuel).1.length ≤ fuel) ∧
    ¬ bracket_adjust_exits (fun _ => (1 : ℚ)) 0 2 := by
  constructor
  · intro func tol a b n fuel
    exact bisection_loop_length_le func tol fuel a b n
  · rintro ⟨k, hk⟩
    norm_num at hk

/-- C10: each pass of the pre-loop bracket adjustment replaces `a` with
`a + 0.5` and `b` with `b - 0.5` simultaneously, so `a + b` (hence the
midpoint `(a+b)/2`) is invariant across the whole adjustment phase while
the width `b - a` drops by exactly `1` per pass; nothing stops the width
from reaching zero or going negative: from `(0, 2)`, after `3` passes the
width is `-1` and (for the constant handle `fun _ => 1`) the loop guard
still holds. -/
theorem bracket_adjust_invariants :
    (∀ a b : ℚ, adjust_step (a, b) = (a + 0.5, b - 0.5)) ∧
    (∀ (a b : ℚ) (k : ℕ),
        (adjust_step^[k] (a, b)).1 + (adjust_step^[k] (a, b)).2 = a + b ∧
        ((adjust_step^[k] (a, b)).1 + (adjust_step^[k] (a, b)).2) / 2
          = (a + b) / 2 ∧
        (adjust_step^[k] (a, b)).2 - (adjust_step^[k] (a, b)).1
          = b - a - k) ∧
    ((adjust_step^[3] ((0 : ℚ), (2 : ℚ))).2
        - (adjust_step^[3] ((0 : ℚ), (2 : ℚ))).1 = -1 ∧
      (fun _ : ℚ => (1 : ℚ)) (adjust_step^[3] ((0 : ℚ), (2 : ℚ))).1
        * (fun _ : ℚ => (1 : ℚ)) (adjust_step^[3] ((0 : ℚ), (2 : ℚ))).2
        ≥ 0) := by
  refine ⟨fun a b => rfl, fun a b k => ?_, ?_⟩
  · rw [adjust_step_iterate]
    refine ⟨by dsimp; ring, by dsimp; ring, by dsimp; ring⟩
  · rw [adjust_step_iterate]
    norm_num

/-- C8: in every bisection run, each recorded row stores the exact error
`(b_n - a_n)/2` of its bracket, and along the recorded trace each row's
exact (unrounded) error is exactly half the previous row's, because every
non-final iteration replaces one endpoint with the midpoint. -/
theorem bisection_error_halving (func : ℚ → ℚ) (tol a b : ℚ)
    (n fuel : ℕ) :
    (∀ r ∈ (bisection_loop func tol a b n fuel).1,
        r.error = (r.bn - r.an) / 2) ∧
    List.Chain' (fun r s => s.error = r.error / 2)
      (bisection_loop func tol a b n fuel).1 :=
  ⟨bisection_loop_row_error func tol fuel a b n,
   bisection_loop_chain func tol fuel a b n⟩

/-- C8 witness: the halving relation instantiated on the concrete run
`f x = x - 1/3` on `[0, 2]` with tolerance `2`, applied to its first
recorded row. -/
theorem bisection_error_halving_witness :
    ∀ r ∈ (bisection_loop (fun x => x - 1/3) 2 0 2 1 100).1,
      r.error = (r.bn - r.an) / 2 :=
  (bisection_error_halving (fun x => x - 1/3) 2 0 2 1 100).1

/-- C2 counterexample: the claim says `trace[n].index == n` for every
engine, but `bisection_method` runs `for n in range(1, max_iter + 1)`, so
its first record carries index `1`, not `0`: on `f x = x - 1/3`,
`a = 0`, `b = 2` (a genuine bracket, so the pre-loop adjustment exits at
once) with tolerance `2`, the run converges on its first iteration and
the recorded index list is `[1]`, not `List.range' 0 1 = [0]`. -/
theorem trace_index_counterexample :
    ((fun x : ℚ => x - 1/3) 0) * ((fun x : ℚ => x - 1/3) 2) < 0 ∧
    ((bisection_loop (fun x => x - 1/3) 2 0 2 1 100).1.map BisRow.n)
      = [1] ∧
    ((bisection_loop (fun x => x - 1/3) 2 0 2 1 100).1.map BisRow.n)
      ≠ List.range' 0
          (bisection_loop (fun x => x - 1/3) 2 0 2 1 100).1.length := by
  have h100 : (100 : ℕ) = 99 + 1 := rfl
  have hconv := (bisection_loop_converged_iff (fun x => x - 1/3) 2 0 2 1
    99).mpr (by norm_num)
  refine ⟨by norm_num, ?_, ?_⟩
  · rw [h100, hconv]
    simp
  · rw [h100, hconv]
    simp [List.range']

/-- C2 amended: in the secant, false-position, Newton and fixed-point
engines the record appended at position `k` of the trace carries index
`k` (the recorded index lists are `List.range' 0 len`, i.e. `0, 1, 2, …`
with no gaps or duplicates); in bisection the indices likewise increase
by exactly `1` with no gaps or duplicates but start at `1`, so the record
at position `k` carries index `k + 1`. -/
theorem trace_index_amended :
    (∀ (func : ℚ → ℚ) (p0 p1 tol : ℚ) (N : ℕ),
        ((secant_method func p0 p1 tol N).1.map SecRow.n)
          = List.range' 0 (secant_method func p0 p1 tol N).1.length) ∧
    (∀ (func : ℚ → ℚ) (a b tol : ℚ) (N : ℕ),
        ((false_position func a b tol N).1.map FPRow.n)
          = List.range' 0 (false_position func a b tol N).1.length) ∧
    (∀ (func d_func : ℚ → ℚ) (x0 tol : ℚ) (N : ℕ),
        ((newton_loop func d_func tol x0 none 0 N).1.map NewtonRow.n)
          = List.range' 0 (newton_loop func d_func tol x0 none 0 N).1.length) ∧
    (∀ (g : ℚ → ℚ) (p0 tol : ℚ) (N : ℕ),
        ((fixed_point_iteration_with_error g p0 tol N).map FixRow.n)
          = List.range' 0 (fixed_point_iteration_with_error g p0 tol N).length) ∧
    (∀ (func : ℚ → ℚ) (a b tol : ℚ) (N : ℕ),
        ((bisection_loop func tol a b 1 N).1.map BisRow.n)
          = List.range' 1 (bisection_loop func tol a b 1 N).1.length) := by
  refine ⟨?_, ?_, ?_, ?_, ?_⟩
  · intro func p0 p1 tol N
    have h := secant_loop_map_n func tol N p0 p1 2
    simp only [secant_method, List.map_cons, List.length_cons, h,
      List.range'_succ]
  · intro func a b tol N
    have h := false_position_loop_map_n func tol N b a b 2
    simp only [false_position, List.map_cons, List.length_cons, h,
      List.range'_succ]
  · intro func d_func x0 tol N
    exact newton_loop_map_n func d_func tol N x0 none 0
  · intro g p0 tol N
    have h := fixed_point_loop_map_n g tol N p0 1
    simp only [fixed_point_iteration_with_error, List.map_cons,
      List.length_cons, h, List.range'_succ]
  · intro func a b tol N
    exact bisection_loop_map_n func tol N a b 1

/-- C7: a bisection iteration on bracket `(a, b)` computes the midpoint
`p = (a+b)/2` and error `(b-a)/2`, records the row
`(n, a, b, p, f(p), error)` at the head of the remaining trace, stops
with `converged` exactly when `error < tol` or `f(p) = 0` exactly, and
otherwise replaces exactly one endpoint: `a` is replaced by `p` when
`f(a)*f(p) < 0` is false (continuation runs on `(p, b)`), else `b` is
replaced by `p` (continuation runs on `(a, p)`). -/
theorem bisection_iteration_rule (func : ℚ → ℚ) (tol an bn : ℚ)
    (n fuel : ℕ) :
    ((bisection_loop func tol an bn n (fuel + 1)).1.head?
        = some ⟨n, an, bn, (an + bn) / 2, func ((an + bn) / 2),
            (bn - an) / 2⟩) ∧
    (bisection_loop func tol an bn n (fuel + 1)
        = ([⟨n, an, bn, (an + bn) / 2, func ((an + bn) / 2), (bn - an) / 2⟩],
           BisOutcome.converged ((an + bn) / 2) n)
      ↔ ((bn - an) / 2 < tol ∨ func ((an + bn) / 2) = 0)) ∧
    (¬ ((bn - an) / 2 < tol ∨ func ((an + bn) / 2) = 0) →
      (func an * func ((an + bn) / 2) < 0 →
        bisection_loop func tol an bn n (fuel + 1)
          = (⟨n, an, bn, (an + bn) / 2, func ((an + bn) / 2), (bn - an) / 2⟩
              :: (bisection_loop func tol an ((an + bn) / 2) (n + 1) fuel).1,
             (bisection_loop func tol an ((an + bn) / 2) (n + 1) fuel).2)) ∧
      (¬ func an * func ((an + bn) / 2) < 0 →
        bisection_loop func tol an bn n (fuel + 1)
          = (⟨n, an, bn, (an + bn) / 2, func ((an + bn) / 2), (bn - an) / 2⟩
              :: (bisection_loop func tol ((an + bn) / 2) bn (n + 1) fuel).1,
             (bisection_loop func tol ((an + bn) / 2) bn (n + 1) fuel).2))) := by
  refine ⟨?_, bisection_loop_converged_iff func tol an bn n fuel, ?_⟩
  · rw [bisection_loop]
    dsimp only
    split
    · rfl
    · split <;> rfl
  · intro hstop
    constructor
    · intro hsign
      rw [bisection_loop]
      dsimp only
      rw [if_neg hstop, if_pos hsign]
    · intro hsign
      rw [bisection_loop]
      dsimp only
      rw [if_neg hstop, if_neg hsign]

/-- C7 witness: the non-converged branch instantiated on
`f x = x - 1/3`, bracket `(0, 2)`, tolerance `1/1000`: here
`f(0)*f(1) = -2/9 < 0`, so `b` is replaced by the midpoint `1` and the
continuation runs on `(0, 1)`. -/
theorem bisection_iteration_rule_witness :
    bisection_loop (fun x => x - 1/3) (1/1000) 0 2 1 (99 + 1)
      = (⟨1, 0, 2, (0 + 2) / 2, (fun x : ℚ => x - 1/3) ((0 + 2) / 2),
           (2 - 0) / 2⟩
          :: (bisection_loop (fun x => x - 1/3) (1/1000) 0 ((0 + 2) / 2)
                (1 + 1) 99).1,
         (bisection_loop (fun x => x - 1/3) (1/1000) 0 ((0 + 2) / 2)
            (1 + 1) 99).2) :=
  ((bisection_iteration_rule (fun x => x - 1/3) (1/1000) 0 2 1 99).2.2
    (by norm_num)).1 (by norm_num)

/-- C5: a non-terminal false-position iteration updates the maintained
bracket by sign-based endpoint retention: having computed
`p_next = a - f(a)(b-a)/(f(b)-f(a))` and recorded it, if
`f(a)*f(p_next) < 0` the continuation runs on the bracket `(a, p_next)`
(`b` is replaced, `a` retained), otherwise on `(p_next, b)` (`a` is
replaced, `b` retained); in both cases `p_prev` becomes `p_next`.  One
endpoint survives by sign, unlike the secant engine's unconditional
shift. -/
theorem false_position_bracket_update (func : ℚ → ℚ) (tol pp a b : ℚ)
    (i fuel : ℕ) (hden : ¬ func b - func a = 0)
    (hconv : ¬ |fp_p_next func a b - pp| < tol) :
    (func a * func (fp_p_next func a b) < 0 →
      false_position_loop func tol pp a b i (fuel + 1)
        = (⟨i, fp_p_next func a b, some |fp_p_next func a b - pp|⟩
            :: (false_position_loop func tol (fp_p_next func a b) a
                  (fp_p_next func a b) (i + 1) fuel).1,
           (false_position_loop func tol (fp_p_next func a b) a
              (fp_p_next func a b) (i + 1) fuel).2)) ∧
    (¬ func a * func (fp_p_next func a b) < 0 →
      false_position_loop func tol pp a b i (fuel + 1)
        = (⟨i, fp_p_next func a b, some |fp_p_next func a b - pp|⟩
            :: (false_position_loop func tol (fp_p_next func a b)
                  (fp_p_next func a b) b (i + 1) fuel).1,
           (false_position_loop func tol (fp_p_next func a b)
              (fp_p_next func a b) b (i + 1) fuel).2)) := by
  constructor
  · intro hsign
    rw [false_position_loop]
    dsimp only
    rw [if_neg hden, if_neg hconv, if_pos hsign]
  · intro hsign
    rw [false_position_loop]
    dsimp only
    rw [if_neg hden, if_neg hconv, if_neg hsign]

/-- C5 witness: on `f x = x - 3` with bracket `(0, 1)`, `p_prev = 0`,
tolerance `1`: `p_next = 3`, `f(0)*f(3) = 0` is not `< 0`, so `a` is
replaced by `p_next` and `b = 1` is retained. -/
theorem false_position_bracket_update_witness :
    false_position_loop (fun x => x - 3) 1 0 0 1 2 (9 + 1)
      = (⟨2, fp_p_next (fun x => x - 3) 0 1,
           some |fp_p_next (fun x => x - 3) 0 1 - 0|⟩
          :: (false_position_loop (fun x => x - 3) 1
                (fp_p_next (fun x => x - 3) 0 1)
                (fp_p_next (fun x => x - 3) 0 1) 1 (2 + 1) 9).1,
         (false_position_loop (fun x => x - 3) 1
            (fp_p_next (fun x => x - 3) 0 1)
            (fp_p_next (fun x => x - 3) 0 1) 1 (2 + 1) 9).2) :=
  (false_position_bracket_update (fun x => x - 3) 1 0 0 1 2 9
    (by norm_num) (by norm_num [fp_p_next])).2
    (by norm_num [fp_p_next])

/-- C6: a secant iteration always uses the two most recent estimates:
with state `(p0, p1)` it computes
`p_next = p1 - f(p1)(p1-p0)/(f(p1)-f(p0))` and `error = |p_next - p1|`,
records them, and on a non-terminal step shifts the state to
`(p1, p_next)` unconditionally (no sign-based retention); when
`f(p1) - f(p0) = 0` it stops with the division-by-zero outcome without
computing the update. -/
theorem secant_update_rule (func : ℚ → ℚ) (tol pm1 p : ℚ) (i fuel : ℕ) :
    (func p - func pm1 = 0 →
      secant_loop func tol pm1 p i (fuel + 1)
        = ([], SecOutcome.divisionByZero)) ∧
    (secant_p_next func pm1 p
        = p - (func p * (p - pm1)) / (func p - func pm1)) ∧
    (¬ func p - func pm1 = 0 →
      (secant_loop func tol pm1 p i (fuel + 1)).1.head?
        = some ⟨i, secant_p_next func pm1 p,
            func (secant_p_next func pm1 p),
            some |secant_p_next func pm1 p - p|⟩) ∧
    (¬ func p - func pm1 = 0 → ¬ |secant_p_next func pm1 p - p| < tol →
      secant_loop func tol pm1 p i (fuel + 1)
        = (⟨i, secant_p_next func pm1 p, func (secant_p_next func pm1 p),
             some |secant_p_next func pm1 p - p|⟩
            :: (secant_loop func tol p (secant_p_next func pm1 p)
                  (i + 1) fuel).1,
           (secant_loop func tol p (secant_p_next func pm1 p)
              (i + 1) fuel).2)) := by
  refine ⟨?_, rfl, ?_, ?_⟩
  · intro hden
    rw [secant_loop]
    dsimp only
    rw [if_pos hden]
  · intro hden
    rw [secant_loop]
    dsimp only
    rw [if_neg hden]
    split <;> rfl
  · intro hden hconv
    rw [secant_loop]
    dsimp only
    rw [if_neg hden, if_neg hconv]

/-- C6 witness: on `f x = x`, the zero-denominator guard fires for
`p0 = p1 = 0`; and for `p0 = 0, p1 = 2` (denominator `2`), `p_next = 0`
with error `2 ≥ 1`, so the state shifts to `(2, 0)`. -/
theorem secant_update_rule_witness :
    (secant_loop (fun x => x) 1 0 0 2 (4 + 1)
        = ([], SecOutcome.divisionByZero)) ∧
    (secant_loop (fun x => x) 1 0 2 2 (4 + 1)
        = (⟨2, secant_p_next (fun x => x) 0 2,
             (fun x : ℚ => x) (secant_p_next (fun x => x) 0 2),
             some |secant_p_next (fun x => x) 0 2 - 2|⟩
            :: (secant_loop (fun x => x) 1 2 (secant_p_next (fun x => x) 0 2)
                  (2 + 1) 4).1,
           (secant_loop (fun x => x) 1 2 (secant_p_next (fun x => x) 0 2)
              (2 + 1) 4).2)) :=
  ⟨(secant_update_rule (fun x => x) 1 0 0 2 4).1 (by norm_num),
   (secant_update_rule (fun x => x) 1 0 2 2 4).2.2.2 (by norm_num)
     (by norm_num [secant_p_next])⟩

/-- C4 counterexample: the claim says that on a zero derivative the Trace
Sink still receives the partial trace, as for every other outcome.  On
`f x = x² + 2x + 2`, `f' x = 2x + 2`, `x0 = 0`, tolerance `1/1000`:
iteration `0` records `(0, 0, 2, 2, N/A)` and steps to `x1 = -1`, where
`f'(-1) = 0`, so `newton_method` executes `return None` before its CSV
block — `newton_csv` is `none` even though the accumulated partial trace
is the nonempty `[(0, 0, 2, 2, N/A)]`. -/
theorem newton_zero_derivative_counterexample :
    newton_csv (fun x => x^2 + 2*x + 2) (fun x => 2*x + 2) 0 (1/1000) 50
      = none ∧
    (newton_loop (fun x => x^2 + 2*x + 2) (fun x => 2*x + 2) (1/1000)
        0 none 0 50).1
      = [⟨0, 0, 2, 2, none⟩] := by
  have h1 := newton_loop_continue (fun x => x^2 + 2*x + 2)
    (fun x => 2*x + 2) (1/1000) 0 none 0 49 (by norm_num) (by norm_num)
  have h2 : newton_loop (fun x => x^2 + 2*x + 2) (fun x => 2*x + 2)
      (1/1000)
      (0 - (fun x : ℚ => x^2 + 2*x + 2) 0 / (fun x : ℚ => 2*x + 2) 0)
      (some |0 - (fun x : ℚ => x^2 + 2*x + 2) 0 /
        (fun x : ℚ => 2*x + 2) 0 - 0|) (0 + 1) 49
      = ([], NewtonOutcome.zeroDerivative) :=
    newton_loop_zero_derivative (fun x => x^2 + 2*x + 2)
      (fun x => 2*x + 2) (1/1000) _ _ (0 + 1) 48 (by norm_num)
  have hloop : newton_loop (fun x => x^2 + 2*x + 2) (fun x => 2*x + 2)
      (1/1000) 0 none 0 50
      = ([⟨0, 0, (fun x : ℚ => x^2 + 2*x + 2) 0,
           (fun x : ℚ => 2*x + 2) 0, none⟩],
         NewtonOutcome.zeroDerivative) := by
    rw [show (50 : ℕ) = 49 + 1 from rfl, h1, h2]
  constructor
  · refine (newton_csv_none_iff _ _ _ _ _).mpr ?_
    rw [hloop]
  · rw [hloop]
    norm_num

/-- C4 amended: on a zero derivative at the current estimate the Newton
run stops immediately with the zero-derivative outcome (nothing further
is attempted and the current row is not even appended), but — unlike
every other outcome kind — the accumulated partial trace is *not*
delivered to the Trace Sink: `newton_method` returns `None` before its
CSV-writing block, so `newton_csv` is `none` exactly on the
zero-derivative outcome. -/
theorem newton_zero_derivative_amended :
    (∀ (func d_func : ℚ → ℚ) (tol x : ℚ) (e : Option ℚ) (n fuel : ℕ),
        d_func x = 0 →
          newton_loop func d_func tol x e n (fuel + 1)
            = ([], NewtonOutcome.zeroDerivative)) ∧
    (∀ (func d_func : ℚ → ℚ) (x0 tol : ℚ) (max_iter : ℕ),
        newton_csv func d_func x0 tol max_iter = none
          ↔ (newton_loop func d_func tol x0 none 0 max_iter).2
              = NewtonOutcome.zeroDerivative) :=
  ⟨fun func d_func tol x e n fuel hd =>
     newton_loop_zero_derivative func d_func tol x e n fuel hd,
   fun func d_func x0 tol N => newton_csv_none_iff func d_func x0 tol N⟩

/-- C4 amended witness: the immediate-stop branch applied to the
constant-zero derivative handle at `x = 5`. -/
theorem newton_zero_derivative_amended_witness :
    newton_loop (fun x : ℚ => x) (fun _ : ℚ => 0) 1 5 none 0 (7 + 1)
      = ([], NewtonOutcome.zeroDerivative) :=
  newton_zero_derivative_amended.1 (fun x => x) (fun _ => 0) 1 5 none 0 7
    rfl

/-- C9 counterexample: the claim says the final trace record's estimate
always differs from the reported root of a converged Newton run.  On
`f x = x - 1`, `f' = 1`, `x0 = 1`, tolerance `1/1000`: `f(1) = 0`, so
`x_next = 1 - 0/1 = 1 = x_0`; the run converges at iteration `0`
reporting root `1`, and the only (hence final) trace record also stores
estimate `1` — they are equal, not different. -/
theorem newton_root_not_recorded_counterexample :
    newton_loop (fun x => x - 1) (fun _ => 1) (1/1000) 1 none 0 50
      = ([⟨0, 1, 0, 1, none⟩], NewtonOutcome.converged 1 0) ∧
    (1 : ℚ) - (fun x : ℚ => x - 1) 1 / (fun _ : ℚ => 1) 1 = 1 := by
  constructor
  · have h := (newton_loop_converged_iff (fun x => x - 1) (fun _ => 1)
      (1/1000) 1 none 0 49).mpr ⟨by norm_num, by norm_num⟩
    rw [show (50 : ℕ) = 49 + 1 from rfl, h]
    norm_num
  · norm_num

/-- C9 amended: a converging Newton step records the pre-update estimate
`x_n` (the appended row stores `x_n`, not `x_next`) and stops immediately
after with the reported root `x_next = x_n - f(x_n)/f'(x_n)`, which is
never appended as a record; the final record's estimate differs from the
reported root whenever `f(x_n) ≠ 0` (they coincide exactly when the
Newton step is zero). -/
theorem newton_root_not_recorded_amended (func d_func : ℚ → ℚ)
    (tol x : ℚ) (e : Option ℚ) (n fuel : ℕ)
    (hd : d_func x ≠ 0) (hc : |x - func x / d_func x - x| < tol) :
    newton_loop func d_func tol x e n (fuel + 1)
      = ([⟨n, x, func x, d_func x, e⟩],
         NewtonOutcome.converged (x - func x / d_func x) n) ∧
    (func x ≠ 0 → x - func x / d_func x ≠ x) := by
  refine ⟨(newton_loop_converged_iff func d_func tol x e n fuel).mpr
    ⟨hd, hc⟩, ?_⟩
  intro hf heq
  have hz : func x / d_func x = 0 := by
    have := sub_eq_self.mp heq
    linarith
  rcases div_eq_zero_iff.mp hz with h | h
  · exact hf h
  · exact hd h

/-- C9 amended witness: on `f x = 2x - 1`, `f' = 2`, `x0 = 1`, tolerance
`2`: the step to `1/2` converges, the single record stores `1`, and the
reported root `1/2` differs from it since `f(1) = 1 ≠ 0`. -/
theorem newton_root_not_recorded_amended_witness :
    newton_loop (fun x => 2*x - 1) (fun _ => 2) 2 1 none 0 (5 + 1)
      = ([⟨0, 1, (fun x : ℚ => 2*x - 1) 1, (fun _ : ℚ => 2) 1, none⟩],
         NewtonOutcome.converged
           (1 - (fun x : ℚ => 2*x - 1) 1 / (fun _ : ℚ => 2) 1) 0) ∧
    ((fun x : ℚ => 2*x - 1) 1 ≠ 0 →
      (1 : ℚ) - (fun x : ℚ => 2*x - 1) 1 / (fun _ : ℚ => 2) 1 ≠ 1) :=
  newton_root_not_recorded_amended (fun x => 2*x - 1) (fun _ => 2) 2 1
    none 0 5 (by norm_num) (by norm_num [abs_of_nonneg, abs_of_nonpos])

/-- C3 counterexample: the claim says every engine rounds every recorded
numeric field to about `ceil(-log10 tol) + 1` decimal places.  The
fixed-point engine stores values with no rounding at all: with
`g p = p/3`, `p0 = 1/3`, tolerance `1/10` (so the claimed precision is
`decimal_places (1/10) = 2`, and "approximately" allows `1`–`3`), the
record at position `1` stores `p = 1/9` and `error = 2/9` exactly — and
`1/9` is not equal to its own rounding at `1`, `2` or `3` decimal
places. -/
theorem rounding_policy_counterexample :
    (fixed_point_iteration_with_error (fun p => p/3) (1/3) (1/10) 100)[1]?
      = some ⟨1, 1/9, some (2/9)⟩ ∧
    decimal_places (1/10) = 2 ∧
    pyround (1/9) 1 ≠ 1/9 ∧ pyround (1/9) 2 ≠ 1/9 ∧ pyround (1/9) 3 ≠ 1/9 := by
  have habs : |(1/3 : ℚ)/3 - 1/3| = 2/9 := by
    rw [abs_of_nonpos] <;> norm_num
  refine ⟨?_, ?_, ?_, ?_, ?_⟩
  · have h := fixed_point_loop_continue (fun p => p/3) (1/10) (1/3) 1 99
      (by dsimp only; rw [habs]; norm_num)
    rw [fixed_point_iteration_with_error,
      show (100 : ℕ) = 99 + 1 from rfl, h]
    dsimp only
    rw [habs]
    norm_num
  · rw [show (1/10 : ℚ) = 1 / 10 ^ 1 by norm_num, decimal_places_pow]
  · norm_num [pyround, roundHalfEven, Int.floor_eq_iff]
  · norm_num [pyround, roundHalfEven, Int.floor_eq_iff]
  · norm_num [pyround, roundHalfEven, Int.floor_eq_iff]

/-- C3 amended: rounding never feeds back into control flow — in each of
the five engines, the decision to stop at a step is a function of the
exact, unrounded midpoint/estimate and error (the five iff conjuncts
below characterise the converging step in terms of exact values only) —
but the recorded display precision is *not* uniformly derived from the
tolerance: secant and false position round recorded fields to
`decimal_places tol = int(-log10 tol) + 1` places; bisection and Newton
round to a fixed `7` places regardless of tolerance (for tolerance `2`
the tolerance-derived precision would be `1`, yet bisection records
`pyround (2/3) 7`); and the fixed-point engine records exact values with
no rounding at all. -/
theorem rounding_policy_amended :
    (∀ (func : ℚ → ℚ) (tol an bn : ℚ) (n fuel : ℕ),
        bisection_loop func tol an bn n (fuel + 1)
            = ([⟨n, an, bn, (an + bn) / 2, func ((an + bn) / 2),
                 (bn - an) / 2⟩],
               BisOutcome.converged ((an + bn) / 2) n)
          ↔ ((bn - an) / 2 < tol ∨ func ((an + bn) / 2) = 0)) ∧
    (∀ (func : ℚ → ℚ) (tol pm1 p : ℚ) (i fuel : ℕ),
        secant_loop func tol pm1 p i (fuel + 1)
            = ([⟨i, secant_p_next func pm1 p,
                 func (secant_p_next func pm1 p),
                 some |secant_p_next func pm1 p - p|⟩],
               SecOutcome.converged (secant_p_next func pm1 p) i)
          ↔ (func p - func pm1 ≠ 0 ∧
              |secant_p_next func pm1 p - p| < tol)) ∧
    (∀ (func : ℚ → ℚ) (tol pp a b : ℚ) (i fuel : ℕ),
        false_position_loop func tol pp a b i (fuel + 1)
            = ([⟨i, fp_p_next func a b, some |fp_p_next func a b - pp|⟩],
               FPOutcome.converged (fp_p_next func a b) i)
          ↔ (func b - func a ≠ 0 ∧ |fp_p_next func a b - pp| < tol)) ∧
    (∀ (func d_func : ℚ → ℚ) (tol x : ℚ) (e : Option ℚ) (n fuel : ℕ),
        newton_loop func d_func tol x e n (fuel + 1)
            = ([⟨n, x, func x, d_func x, e⟩],
               NewtonOutcome.converged (x - func x / d_func x) n)
          ↔ (d_func x ≠ 0 ∧ |x - func x / d_func x - x| < tol)) ∧
    (∀ (g : ℚ → ℚ) (tol p : ℚ) (n fuel : ℕ),
        fixed_point_loop g tol p n (fuel + 2) = [⟨n, g p, some |g p - p|⟩]
          ↔ |g p - p| < tol) ∧
    decimal_places (1/1000) = 4 ∧
    (secant_csv (fun x => x) (1/3) (2/3) (1/1000) 50).head?
      = some ⟨0, 3333/10000, 3333/10000, none⟩ ∧
    ((bisection_iterations (fun x => x - 1/3) 0 2 2 100).head?).map
        BisRow.fpn
      = some (pyround (2/3) 7) ∧
    pyround (2/3) 7 ≠ pyround (2/3) (decimal_places 2) ∧
    (fixed_point_iteration_with_error (fun p => p/3) (1/3) (1/10) 100)[1]?
      = some ⟨1, 1/9, some (2/9)⟩ := by
  refine ⟨fun func tol an bn n fuel =>
      bisection_loop_converged_iff func tol an bn n fuel,
    fun func tol pm1 p i fuel =>
      secant_loop_converged_iff func tol pm1 p i fuel,
    fun func tol pp a b i fuel =>
      false_position_loop_converged_iff func tol pp a b i fuel,
    fun func d_func tol x e n fuel =>
      newton_loop_converged_iff func d_func tol x e n fuel,
    fun g tol p n fuel =>
      fixed_point_loop_singleton_iff g tol p n fuel,
    ?_, ?_, ?_, ?_, ?_⟩
  · rw [show (1/1000 : ℚ) = 1 / 10 ^ 3 by norm_num, decimal_places_pow]
  · have hdp : decimal_places (1/1000) = 4 := by
      rw [show (1/1000 : ℚ) = 1 / 10 ^ 3 by norm_num, decimal_places_pow]
    rw [secant_csv, secant_method]
    rw [hdp]
    simp only [List.map_cons, List.head?_cons, roundSecRow]
    norm_num [pyround, roundHalfEven, Int.floor_eq_iff]
  · have hconv := (bisection_loop_converged_iff (fun x => x - 1/3) 2 0 2 1
      99).mpr (by norm_num)
    rw [bisection_iterations, show (100 : ℕ) = 99 + 1 from rfl, hconv]
    simp only [List.map_cons, List.head?_cons, roundBisRow,
      Option.map_some]
    norm_num
  · rw [decimal_places_two]
    norm_num [pyround, roundHalfEven, Int.floor_eq_iff]
  · have habs : |(1/3 : ℚ)/3 - 1/3| = 2/9 := by
      rw [abs_of_nonpos] <;> norm_num
    have h := fixed_point_loop_continue (fun p => p/3) (1/10) (1/3) 1 99
      (by dsimp only; rw [habs]; norm_num)
    rw [fixed_point_iteration_with_error,
      show (100 : ℕ) = 99 + 1 from rfl, h]
    dsimp only
    rw [habs]
    norm_num

end RootFinding
